import Mathlib

/-!
Verification of the poker_simulator repository.

Shallow embedding of the card model (DeckOfCards.py), the hand evaluator
(PokerEvaluator.py / PokerSimulator.py), the multi-player resolver
(PokerEvaluator.evaluate) and the dealing loop (PokerSimulator.py).

Ranks are the integers 2..14 (Two..Ace) and suits the integers 0..3
(SPADE, HEART, DIAMOND, CLUB), exactly the ordinals used by the Python
enums.  Machine integers are modelled as Nat; the Python comparison
rank == last - 1 over genuinely nonnegative ranks is rendered as
rank + 1 = last to avoid truncated subtraction pitfalls.
-/

/-- A playing card: immutable pair of rank (2..14) and suit ordinal (0..3),
mirroring PlayingCard in DeckOfCards.py. -/
structure PlayingCard where
  rank : Nat
  suit : Nat
deriving DecidableEq, Repr

/-- PlayingCard.value in DeckOfCards.py: 1 << (suit.value * 12 + rank.value - 2).
Note the multiplier is 12 in the source. -/
def cardValue (c : PlayingCard) : Nat :=
  1 <<< (c.suit * 12 + c.rank - 2)

/-- Follows the spec's words (section 3, Card Mask):
bit = 1 << (suit_ordinal * 13 + (rank_value - 2)).  Second definition kept
for comparison with cardValue, which is translated from the source. -/
def card_mask_spec (c : PlayingCard) : Nat :=
  1 <<< (c.suit * 13 + (c.rank - 2))

/-- DeckOfCards.hash_cards: functools.reduce(operator.or_, [card.value]).
reduce with no initial value raises TypeError on an empty list, modelled
as none. -/
def hash_cards : List PlayingCard → Option Nat
  | [] => none
  | c :: cs => some (cs.foldl (fun acc d => acc ||| cardValue d) (cardValue c))

/-- All 13 rank values, Two..Ace. -/
def allRanks : List Nat := [2, 3, 4, 5, 6, 7, 8, 9, 10, 11, 12, 13, 14]

/-- All 4 suit ordinals. -/
def allSuits : List Nat := [0, 1, 2, 3]

/-- The 52-card starting deck (STARTING_DECK in DeckOfCards.py; the Python
set's iteration order is arbitrary, so any fixed enumeration is faithful). -/
def allCards : List PlayingCard :=
  allRanks.foldr (fun r acc => allSuits.map (fun s => ⟨r, s⟩) ++ acc) []

/-- DeckOfCards.draw: raises on an empty deck, otherwise pops and returns
the last card of the sequence. -/
def draw : List PlayingCard → Option (PlayingCard × List PlayingCard)
  | [] => none
  | [c] => some (c, [])
  | c :: c2 :: cs =>
    match draw (c2 :: cs) with
    | some (d, rest) => some (d, c :: rest)
    | none => none

theorem draw_nil : draw [] = none := rfl

theorem draw_eq_some_iff (l : List PlayingCard) (c : PlayingCard)
    (rest : List PlayingCard) (h : draw l = some (c, rest)) :
    l = rest ++ [c] := by
  induction l generalizing rest with
  | nil => simp [draw] at h
  | cons a as ih =>
    cases as with
    | nil =>
      simp [draw] at h
      simp [h.1, h.2.symm]
    | cons b bs =>
      simp only [draw] at h
      cases hd : draw (b :: bs) with
      | none => rw [hd] at h; simp at h
      | some p =>
        obtain ⟨d, r⟩ := p
        rw [hd] at h
        simp only [Option.some.injEq, Prod.mk.injEq] at h
        obtain ⟨hc, hrest⟩ := h
        subst hc
        have := ih r hd
        rw [← hrest, this]
        simp

theorem draw_cons_isSome (a : PlayingCard) (as : List PlayingCard) :
    (draw (a :: as)).isSome = true := by
  induction as generalizing a with
  | nil => simp [draw]
  | cons b bs ih =>
    simp only [draw]
    cases hd : draw (b :: bs) with
    | none => have := ih b; rw [hd] at this; simp at this
    | some p => obtain ⟨d, r⟩ := p; simp

/-- Stable insertion (ascending by key): the new element goes before the
first element whose key is ≥ its own, so earlier list positions with equal
keys stay first — the stability guarantee of Python's list.sort. -/
def insertAscBy (key : PlayingCard → Nat) (c : PlayingCard) :
    List PlayingCard → List PlayingCard
  | [] => [c]
  | d :: ds => if key c ≤ key d then c :: d :: ds
               else d :: insertAscBy key c ds

/-- Stable sort ascending by key (Python sorted(cards, key=...)). -/
def sortAscBy (key : PlayingCard → Nat) (l : List PlayingCard) :
    List PlayingCard :=
  l.foldr (insertAscBy key) []

/-- Stable insertion for descending order by key. -/
def insertDescBy (key : PlayingCard → Nat) (c : PlayingCard) :
    List PlayingCard → List PlayingCard
  | [] => [c]
  | d :: ds => if key d ≤ key c then c :: d :: ds
               else d :: insertDescBy key c ds

/-- Stable sort descending by key (Python sorted(..., reverse=True)). -/
def sortDescBy (key : PlayingCard → Nat) (l : List PlayingCard) :
    List PlayingCard :=
  l.foldr (insertDescBy key) []

/-- itertools.groupby over a list: maximal runs of consecutive elements
with equal key. -/
def groupByKey (key : PlayingCard → Nat) :
    List PlayingCard → List (List PlayingCard)
  | [] => []
  | c :: cs =>
    match groupByKey key cs with
    | [] => [[c]]
    | [] :: gs => [c] :: gs
    | (d :: g) :: gs =>
      if key c = key d then (c :: d :: g) :: gs else [c] :: (d :: g) :: gs

/-- PokerEvaluator._get_flush_candidates: sort by suit, group by suit, return
the first group of ≥ 5 cards sorted by rank descending, else []. -/
def getFlushCandidates (cards : List PlayingCard) : List PlayingCard :=
  match (groupByKey (fun c => c.suit) (sortAscBy (fun c => c.suit) cards)).find?
      (fun g => decide (5 ≤ g.length)) with
  | some g => sortDescBy (fun c => c.rank) g
  | none => []

/-- Rank of the last card of the running straight (Python straight[-1]);
0 for an empty list (unreachable in the scan). -/
def lastRank : List PlayingCard → Nat
  | [] => 0
  | [c] => c.rank
  | _ :: cs => lastRank cs

/-- The scan loop of PokerEvaluator._eval_straight: extend the running
straight while the next card's rank is exactly one less than the last,
otherwise restart from that card. -/
def straightScan (straight : List PlayingCard) :
    List PlayingCard → List PlayingCard
  | [] => straight
  | c :: cs =>
    if c.rank + 1 = lastRank straight then straightScan (straight ++ [c]) cs
    else straightScan [c] cs

/-- PokerEvaluator._find_rank: first card of the given rank, if any. -/
def findRank (cards : List PlayingCard) (r : Nat) : Option PlayingCard :=
  cards.find? (fun c => c.rank == r)

/-- The wheel splice of _eval_straight: if the running straight bottoms out
at a Two and an Ace is present, keep the last four cards and put the Ace in
front (Python: pop(0) while len > 4, then insert(0, ace)). -/
def wheelPatch (straight sortedCards : List PlayingCard) : List PlayingCard :=
  if !straight.isEmpty && lastRank straight == 2 then
    match findRank sortedCards 14 with
    | some ace => ace :: straight.drop (straight.length - 4)
    | none => straight
  else straight

/-- PokerEvaluator._eval_straight. -/
def evalStraight (cards : List PlayingCard) (needSort : Bool) :
    List PlayingCard :=
  match (if needSort then sortDescBy (fun c => c.rank) cards else cards) with
  | [] => []
  | c :: cs =>
    let straight := wheelPatch (straightScan [c] cs) (c :: cs)
    if 5 ≤ straight.length then straight.take 5 else []

/-- Lexicographic ≥ on (group length, head rank), used by the reverse sort of
_get_rank_groups. -/
def groupKeyGe (p q : Nat × Nat) : Bool :=
  decide (q.1 < p.1) || (p.1 == q.1 && decide (q.2 ≤ p.2))

/-- Key of a rank group: (length, rank of its first card). -/
def groupKey (g : List PlayingCard) : Nat × Nat :=
  (g.length, match g with | [] => 0 | c :: _ => c.rank)

/-- Stable insertion for the descending group sort. -/
def insertGroupDesc (g : List PlayingCard) :
    List (List PlayingCard) → List (List PlayingCard)
  | [] => [g]
  | h :: hs => if groupKeyGe (groupKey g) (groupKey h) then g :: h :: hs
               else h :: insertGroupDesc g hs

/-- PokerEvaluator._get_rank_groups: group by rank, then sort the groups by
(size, rank) descending. -/
def getRankGroups (cards : List PlayingCard) : List (List PlayingCard) :=
  (groupByKey (fun c => c.rank) (sortAscBy (fun c => c.rank) cards)).foldr
    insertGroupDesc []

/-- PokerEvaluator._flatten_groups. -/
def flattenGroups : List (List PlayingCard) → List PlayingCard
  | [] => []
  | g :: gs => g ++ flattenGroups gs

/-- Python max(cards, key=rank): first card of maximal rank; none on an
empty list (where Python raises ValueError). -/
def maxByRank : List PlayingCard → Option PlayingCard
  | [] => none
  | c :: cs =>
    match maxByRank cs with
    | none => some c
    | some d => some (if c.rank < d.rank then d else c)

/-- The hex-digit positions of Poker.py (handrank_hexes). -/
def handrank_hexes : List Nat := [5, 4, 3, 2, 1, 0]

/-- HandRank.value_from in Poker.py: OR each value into its 4-bit hex slot. -/
def value_from (values : List Nat) : Nat :=
  (values.zip handrank_hexes).foldl
    (fun acc p => acc ||| (p.1 <<< (p.2 * 4))) 0

/-- Rank of the i-th card of a list (Python cards[i].rank.value); 0 when out
of range (where Python would raise, unreachable at every use site). -/
def rankAt (l : List PlayingCard) (i : Nat) : Nat :=
  match l.get? i with
  | some c => c.rank
  | none => 0

/-- Flush, straight, three-of-a-kind, two-pair, one-pair and high-card tail of
PokerEvaluator._eval_hand (the branches after four-of-a-kind and full house).
none models the index/assertion errors Python raises on degenerate inputs. -/
def evalHandLow (cards flushCandidates : List PlayingCard)
    (groups : List (List PlayingCard)) : Option (Nat × List PlayingCard) :=
  if !flushCandidates.isEmpty then
    let flush := flushCandidates.take 5
    some (value_from [5, rankAt flush 0, rankAt flush 1, rankAt flush 2,
      rankAt flush 3, rankAt flush 4], flush)
  else
    let straight := evalStraight cards true
    if !straight.isEmpty then
      some (value_from [4, rankAt straight 0, rankAt straight 1], straight)
    else
      match groups with
      | [] => none
      | g0 :: rest =>
        if g0.length == 3 then
          match (sortDescBy (fun c => c.rank) (flattenGroups rest)).take 2 with
          | k0 :: k1 :: _ =>
            if k0.rank == k1.rank then none
            else some (value_from [3, rankAt g0 0, k0.rank, k1.rank],
              g0 ++ [k0, k1])
          | _ => none
        else if g0.length == 2 then
          match rest with
          | [] => none
          | g1 :: rest2 =>
            if g1.length == 2 then
              match maxByRank (flattenGroups rest2) with
              | none => none
              | some kicker =>
                some (value_from [2, rankAt g0 0, rankAt g1 0, kicker.rank],
                  g0 ++ g1 ++ [kicker])
            else
              match (sortDescBy (fun c => c.rank)
                  (flattenGroups (g1 :: rest2))).take 3 with
              | k0 :: k1 :: k2 :: _ =>
                some (value_from [1, rankAt g0 0, k0.rank, k1.rank, k2.rank],
                  g0 ++ [k0, k1, k2])
              | _ => none
        else
          let top := (sortDescBy (fun c => c.rank) cards).take 5
          if top.length == 5 then
            some (value_from [0, rankAt top 0, rankAt top 1, rankAt top 2,
              rankAt top 3, rankAt top 4], top)
          else none

/-- PokerEvaluator._eval_hand: priority cascade royal flush, straight flush,
four of a kind, full house, then the lower categories (evalHandLow).
Returns (hand value, the 5 contributing cards); none where Python raises. -/
def eval_hand (cards : List PlayingCard) : Option (Nat × List PlayingCard) :=
  let flushCandidates := getFlushCandidates cards
  let straightFlush := evalStraight flushCandidates false
  if !straightFlush.isEmpty && rankAt straightFlush 1 == 13 then
    some (value_from [9], straightFlush)
  else if !straightFlush.isEmpty then
    some (value_from [8, rankAt straightFlush 0, rankAt straightFlush 1],
      straightFlush)
  else
    match getRankGroups cards with
    | [] => none
    | g0 :: rest =>
      if g0.length == 4 then
        match maxByRank (flattenGroups rest) with
        | none => none
        | some kicker =>
          some (value_from [7, rankAt g0 0, kicker.rank], g0 ++ [kicker])
      else if g0.length == 3 then
        match rest with
        | [] => none
        | g1 :: _ =>
          if 2 ≤ g1.length then
            some (value_from [6, rankAt g0 0, rankAt g1 0], g0 ++ g1.take 2)
          else evalHandLow cards flushCandidates (g0 :: rest)
      else evalHandLow cards flushCandidates (g0 :: rest)

/-- itertools.combinations(cards, k): all k-element sublists in order. -/
def combinations : Nat → List PlayingCard → List (List PlayingCard)
  | 0, _ => [[]]
  | _ + 1, [] => []
  | k + 1, c :: cs =>
    (combinations k cs).map (fun t => c :: t) ++ combinations (k + 1) cs

/-- Python max over a list of values (none on empty, where max raises). -/
def maxKey : List Nat → Option Nat
  | [] => none
  | v :: vs => some (vs.foldl max v)

/-- The hand value alone (Python: _eval_hand(cards)[0]). -/
def handValue (cards : List PlayingCard) : Option Nat :=
  (eval_hand cards).map (fun e => e.1)

/-- Evaluate every hand of a list; none if any evaluation raises. -/
def evalEach : List (List PlayingCard) → Option (List Nat)
  | [] => some []
  | h :: hs =>
    match handValue h, evalEach hs with
    | some v, some vs => some (v :: vs)
    | _, _ => none

/-- The best value over all C(n,5) five-card subsets, each evaluated with
eval_hand — the cached subset-search path of PokerEvaluator.evaluate with
the cache replaced by the evaluator it memoizes. -/
def bestSubsetValue (cards : List PlayingCard) : Option Nat :=
  match evalEach (combinations 5 cards) with
  | some vs => maxKey vs
  | none => none

/-- PokerGameResult (Poker.py / PokerSimulator.py). -/
structure PokerGameResult where
  hand_value : Nat
  winning_hands : List (List PlayingCard)
  winning_hole_cards : List (List PlayingCard)
deriving DecidableEq, Repr

/-- PokerGameResult.is_draw: more than one winning hand. -/
def PokerGameResult.is_draw (r : PokerGameResult) : Bool :=
  decide (1 < r.winning_hands.length)

/-- The per-player loop of PokerEvaluator.evaluate on the direct
(empty-cache) path: evaluate each player's hole cards together with the
community cards; none if any single evaluation raises. -/
def optionEvalAll (community : List PlayingCard) :
    List (List PlayingCard) → Option (List (Nat × List PlayingCard))
  | [] => some []
  | p :: ps =>
    match eval_hand (p ++ community), optionEvalAll community ps with
    | some e, some es => some (e :: es)
    | _, _ => none

/-- PokerEvaluator.evaluate (direct path): group per-player results by hand
value, take the maximum value, and collect the winning hands and the
corresponding hole cards by player index. -/
def evaluate (players : List (List PlayingCard))
    (community : List PlayingCard) : Option PokerGameResult :=
  match optionEvalAll community players with
  | none => none
  | some evals =>
    match maxKey (evals.map (fun e => e.1)) with
    | none => none
    | some best =>
      let winners := evals.enum.filter (fun p => p.2.1 == best)
      some { hand_value := best,
             winning_hands := winners.map (fun p => p.2.2),
             winning_hole_cards :=
               (winners.map (fun p => p.1)).map (fun i => players.getD i []) }

/-- One round of PokerSimulation.deal_hands: each player in turn draws one
card and appends it to their hand. -/
def dealRound : List (List PlayingCard) → List PlayingCard →
    Option (List (List PlayingCard) × List PlayingCard)
  | [], deck => some ([], deck)
  | p :: ps, deck =>
    match draw deck with
    | none => none
    | some (c, deck1) =>
      match dealRound ps deck1 with
      | none => none
      | some (ps1, deck2) => some ((p ++ [c]) :: ps1, deck2)

/-- PokerSimulation.deal_hands: n fresh empty hands, then two dealing
rounds. -/
def deal_hands (n : Nat) (deck : List PlayingCard) :
    Option (List (List PlayingCard) × List PlayingCard) :=
  match dealRound (List.replicate n []) deck with
  | none => none
  | some (ps1, deck1) => dealRound ps1 deck1

/-- Draw k cards in sequence, appending each to the accumulator. -/
def drawN : Nat → List PlayingCard → List PlayingCard →
    Option (List PlayingCard × List PlayingCard)
  | 0, acc, deck => some (acc, deck)
  | k + 1, acc, deck =>
    match draw deck with
    | none => none
    | some (c, deck1) => drawN k (acc ++ [c]) deck1

/-- PokerSimulation.deal_community_cards: five draws appended to the
(initially empty) community card list. -/
def deal_community (deck : List PlayingCard) :
    Option (List PlayingCard × List PlayingCard) :=
  drawN 5 [] deck

/-- The dealing phase of one PokerSimulation.run trial: hole cards for n
players, then 5 community cards; returns (players, community, rest). -/
def runTrialDeal (n : Nat) (deck : List PlayingCard) :
    Option (List (List PlayingCard) × List PlayingCard × List PlayingCard) :=
  match deal_hands n deck with
  | none => none
  | some (players, deck1) =>
    match deal_community deck1 with
    | none => none
    | some (community, deck2) => some (players, community, deck2)

/-- PokerSimulation (construction state, PokerSimulator.py lines 312-323).
The evaluator and repository collaborators are irrelevant to the dealing
claims and are omitted. -/
structure PokerSimulation where
  number_of_players : Nat
  deck : List PlayingCard
  players : List (List PlayingCard)
  community_cards : List PlayingCard
deriving DecidableEq, Repr

/-- PokerSimulation.__post_init__: reject more than 22 players at
construction time, before any card is dealt (PokerSimulator.__post_init__
performs the identical check). -/
def mkPokerSimulation (n : Nat) (deck : List PlayingCard) :
    Option PokerSimulation :=
  if 22 < n then none else some ⟨n, deck, [], []⟩

theorem draw_none_iff (l : List PlayingCard) : draw l = none ↔ l = [] := by
  cases l with
  | nil => simp [draw]
  | cons a as =>
    simp only [List.cons_ne_nil, iff_false]
    intro h
    have := draw_cons_isSome a as
    rw [h] at this
    simp at this

/-- Ace of spades (rank 14, suit ordinal 0). -/
def aceSpades : PlayingCard := ⟨14, 0⟩

/-- Two of hearts (rank 2, suit ordinal 1). -/
def twoHearts : PlayingCard := ⟨2, 1⟩

/-- A-2-3-4-5 of mixed suits: the wheel straight, not a flush. -/
def wheelStraightHand : List PlayingCard :=
  [⟨14, 0⟩, ⟨2, 1⟩, ⟨3, 2⟩, ⟨4, 3⟩, ⟨5, 0⟩]

/-- 2-3-4-5-6 of mixed suits: the six-high straight. -/
def sixHighStraightHand : List PlayingCard :=
  [⟨2, 1⟩, ⟨3, 2⟩, ⟨4, 3⟩, ⟨5, 0⟩, ⟨6, 1⟩]

/-- A-2-3-4-5 of spades: the steel wheel, lowest straight flush in standard
poker. -/
def steelWheelHand : List PlayingCard :=
  [⟨14, 0⟩, ⟨2, 0⟩, ⟨3, 0⟩, ⟨4, 0⟩, ⟨5, 0⟩]

/-- K-Q-J-10-9 of hearts: the king-high straight flush, second-highest hand
in standard poker. -/
def kingHighStraightFlushHand : List PlayingCard :=
  [⟨13, 1⟩, ⟨12, 1⟩, ⟨11, 1⟩, ⟨10, 1⟩, ⟨9, 1⟩]

/-- Five-card combination containing the ace of spades. -/
def maskCollisionHandA : List PlayingCard :=
  [⟨14, 0⟩, ⟨6, 1⟩, ⟨7, 2⟩, ⟨8, 3⟩, ⟨10, 0⟩]

/-- The same combination with the ace of spades replaced by the two of
hearts. -/
def maskCollisionHandB : List PlayingCard :=
  [⟨2, 1⟩, ⟨6, 1⟩, ⟨7, 2⟩, ⟨8, 3⟩, ⟨10, 0⟩]

/-- Ace-high combination A-K-Q-J-9 of mixed suits. -/
def cacheCollisionHandA : List PlayingCard :=
  [⟨14, 0⟩, ⟨13, 1⟩, ⟨12, 2⟩, ⟨11, 3⟩, ⟨9, 0⟩]

/-- The same combination with the ace of spades replaced by the two of
hearts: king-high. -/
def cacheCollisionHandB : List PlayingCard :=
  [⟨2, 1⟩, ⟨13, 1⟩, ⟨12, 2⟩, ⟨11, 3⟩, ⟨9, 0⟩]

/-- Seven cards 9-8-8-7-6-5-4 (no flush): the duplicated 8 makes the
straight scan restart and lose the 9. -/
def sevenCardScanHand : List PlayingCard :=
  [⟨9, 0⟩, ⟨8, 1⟩, ⟨8, 2⟩, ⟨7, 3⟩, ⟨6, 0⟩, ⟨5, 1⟩, ⟨4, 2⟩]

/-- C1: Hand Value is NOT monotonic with poker hand strength.  The steel
wheel A-2-3-4-5 straight flush — the lowest straight flush under standard
ranking, which every other straight flush beats — is assigned tie-break
digits (14, 5) because the wheel splice puts the Ace in front and the
encoder reads straight[0] as the top card, so its Hand Value exceeds that
of the king-high straight flush. -/
theorem steel_wheel_breaks_value_monotonicity :
    handValue steelWheelHand = some (value_from [8, 14, 5]) ∧
    handValue kingHighStraightFlushHand = some (value_from [8, 13, 12]) ∧
    value_from [8, 13, 12] < value_from [8, 14, 5] := by
  refine ⟨by decide, by decide, by decide⟩

/-- C2: the wheel straight A-2-3-4-5 (non-flush) is classified as a
Straight but receives tie-break digits top = 14 (Ace) and second = 5, not
top = 5 and second = 4, so its Hand Value lies strictly ABOVE the six-high
straight instead of strictly below it.  The digits the spec prescribes
(5, 4) would indeed sit below the six-high straight. -/
theorem wheel_straight_misranked :
    handValue wheelStraightHand = some (value_from [4, 14, 5]) ∧
    handValue sixHighStraightHand = some (value_from [4, 6, 5]) ∧
    value_from [4, 6, 5] < value_from [4, 14, 5] ∧
    value_from [4, 5, 4] < value_from [4, 6, 5] := by
  refine ⟨by decide, by decide, by decide, by decide⟩

/-- C3: the card-to-mask mapping of the source multiplies the suit ordinal
by 12, not 13, so it is NOT a bijection: the ace of spades and the two of
hearts map to the same bit (1 << 12), while the spec formula separates
them.  Consequently the OR-combination mask is not injective over 5-card
sets: two different combinations share a mask. -/
theorem card_mask_not_bijective :
    cardValue aceSpades = cardValue twoHearts ∧
    aceSpades ≠ twoHearts ∧
    card_mask_spec aceSpades ≠ card_mask_spec twoHearts ∧
    hash_cards maskCollisionHandA = hash_cards maskCollisionHandB ∧
    maskCollisionHandA ≠ maskCollisionHandB := by
  refine ⟨by decide, by decide, by decide, by decide, by decide⟩

/-- C4: two distinct five-card combinations hash to the same cache key but
evaluate to different Hand Values, so the precomputed cache — a map keyed
by that hash, written once per key during precompute() — cannot return the
direct evaluator's value for both: get_value is wrong on at least one of
the 2,598,960 combinations. -/
theorem cache_key_collision_breaks_consistency :
    hash_cards cacheCollisionHandA = hash_cards cacheCollisionHandB ∧
    cacheCollisionHandA ≠ cacheCollisionHandB ∧
    handValue cacheCollisionHandA = some (value_from [0, 14, 13, 12, 11, 9]) ∧
    handValue cacheCollisionHandB = some (value_from [0, 13, 12, 11, 9, 2]) ∧
    value_from [0, 14, 13, 12, 11, 9] ≠ value_from [0, 13, 12, 11, 9, 2] := by
  refine ⟨by decide, by decide, by decide, by decide, by decide⟩

/-- C5: the direct seven-card path of the evaluator is NOT equivalent to
the best of the 21 five-card subsets.  On 9-8-8-7-6-5-4 the straight scan
restarts at the duplicated 8 and returns the eight-high straight, while the
subset search finds the nine-high straight. -/
theorem direct_eval_misses_best_subset :
    handValue sevenCardScanHand = some (value_from [4, 8, 7]) ∧
    bestSubsetValue sevenCardScanHand = some (value_from [4, 9, 8]) ∧
    value_from [4, 8, 7] < value_from [4, 9, 8] := by
  refine ⟨by decide, by decide, by decide⟩

/-- C8: constructing a simulation fails exactly when the player count
exceeds 22, and on success the deck is untouched and no cards have been
dealt. -/
theorem too_many_players_check (n : Nat) (deck : List PlayingCard) :
    (22 < n → mkPokerSimulation n deck = none) ∧
    (n ≤ 22 → mkPokerSimulation n deck = some ⟨n, deck, [], []⟩) := by
  constructor
  · intro h
    simp [mkPokerSimulation, h]
  · intro h
    simp [mkPokerSimulation, Nat.not_lt.mpr h]

/-- Witness for C8 at the boundary: 23 players are rejected, 22 accepted
with untouched deck and empty hands. -/
theorem too_many_players_check_witness :
    mkPokerSimulation 23 allCards = none ∧
    mkPokerSimulation 22 allCards = some ⟨22, allCards, [], []⟩ :=
  ⟨(too_many_players_check 23 allCards).1 (by decide),
   (too_many_players_check 22 allCards).2 (by decide)⟩

/-- C9: draw fails exactly on the empty deck; on a non-empty deck it
removes and returns the last card of the sequence, so the deck was the
returned rest plus that card, and the size decreases by one with all other
cards unchanged. -/
theorem draw_spec (deck : List PlayingCard) :
    (draw deck = none ↔ deck = []) ∧
    (∀ c rest, draw deck = some (c, rest) →
      deck = rest ++ [c] ∧ rest.length + 1 = deck.length) := by
  refine ⟨draw_none_iff deck, ?_⟩
  intro c rest h
  have hd := draw_eq_some_iff deck c rest h
  refine ⟨hd, ?_⟩
  rw [hd]
  simp

/-- Witness for C9 on a concrete two-card deck. -/
theorem draw_spec_witness :
    (([⟨2, 0⟩, ⟨3, 0⟩] : List PlayingCard) = [⟨2, 0⟩] ++ [⟨3, 0⟩]) ∧
    ([⟨2, 0⟩] : List PlayingCard).length + 1 =
      ([⟨2, 0⟩, ⟨3, 0⟩] : List PlayingCard).length :=
  (draw_spec [⟨2, 0⟩, ⟨3, 0⟩]).2 ⟨3, 0⟩ [⟨2, 0⟩] (by decide)

/-- The bitwise OR of the cards' individual mask values. -/
def orValues (cards : List PlayingCard) : Nat :=
  cards.foldr (fun c acc => cardValue c ||| acc) 0

theorem foldl_lor_eq (cs : List PlayingCard) (a : Nat) :
    cs.foldl (fun acc d => acc ||| cardValue d) a = a ||| orValues cs := by
  induction cs generalizing a with
  | nil => simp [orValues]
  | cons c cs ih =>
    simp only [List.foldl_cons, orValues, List.foldr_cons]
    rw [ih]
    simp only [orValues]
    rw [Nat.lor_assoc]

/-- C10: hash_cards raises on an empty card list (reduce with no initial
value) rather than returning the zero mask, and on a non-empty list it
returns the bitwise OR of the cards' individual mask values. -/
theorem hash_cards_spec (l : List PlayingCard) :
    (hash_cards l = none ↔ l = []) ∧
    (l ≠ [] → hash_cards l = some (orValues l)) := by
  cases l with
  | nil => simp [hash_cards]
  | cons c cs =>
    refine ⟨by simp [hash_cards], fun _ => ?_⟩
    simp only [hash_cards, Option.some.injEq]
    rw [foldl_lor_eq]
    simp [orValues]

/-- Witness for C10 on a concrete two-card list. -/
theorem hash_cards_spec_witness :
    hash_cards [⟨2, 0⟩, ⟨3, 1⟩] = some (orValues [⟨2, 0⟩, ⟨3, 1⟩]) :=
  (hash_cards_spec [⟨2, 0⟩, ⟨3, 1⟩]).2 (by decide)

theorem flattenGroups_replicate_nil (n : Nat) :
    flattenGroups (List.replicate n []) = [] := by
  induction n with
  | zero => rfl
  | succ k ih => simp [List.replicate, flattenGroups, ih]

theorem dealRound_spec (ps : List (List PlayingCard))
    (deck : List PlayingCard) (ps1 : List (List PlayingCard))
    (deck1 : List PlayingCard) (h : dealRound ps deck = some (ps1, deck1)) :
    (flattenGroups ps1 ++ deck1).Perm (flattenGroups ps ++ deck) ∧
    deck1.length + ps.length = deck.length ∧
    ps1.map List.length = ps.map (fun p => p.length + 1) := by
  induction ps generalizing deck ps1 deck1 with
  | nil =>
    simp only [dealRound, Option.some.injEq, Prod.mk.injEq] at h
    obtain ⟨h1, h2⟩ := h
    subst h1; subst h2
    exact ⟨List.Perm.refl _, by simp, by simp⟩
  | cons p ps ih =>
    simp only [dealRound] at h
    cases hd : draw deck with
    | none => rw [hd] at h; simp at h
    | some pr =>
      obtain ⟨c, dk1⟩ := pr
      rw [hd] at h
      simp only at h
      cases hr : dealRound ps dk1 with
      | none => rw [hr] at h; simp at h
      | some pr2 =>
        obtain ⟨ps2, dk2⟩ := pr2
        rw [hr] at h
        simp only [Option.some.injEq, Prod.mk.injEq] at h
        obtain ⟨hps1, hdeck1⟩ := h
        subst hps1; subst hdeck1
        have hsplit := draw_eq_some_iff deck c dk1 hd
        subst hsplit
        obtain ⟨ihperm, ihlen, ihmap⟩ := ih dk1 ps2 dk2 hr
        refine ⟨?_, ?_, ?_⟩
        · simp only [flattenGroups]
          have h4 : ([c] ++ (flattenGroups ps2 ++ dk2)).Perm
              ((flattenGroups ps ++ dk1) ++ [c]) :=
            ((List.perm_append_singleton c
              (flattenGroups ps2 ++ dk2)).symm).trans (ihperm.append_right [c])
          have e1 : ((p ++ [c]) ++ flattenGroups ps2) ++ dk2 =
              p ++ ([c] ++ (flattenGroups ps2 ++ dk2)) := by
            simp only [List.append_assoc]
          have e2 : (p ++ flattenGroups ps) ++ (dk1 ++ [c]) =
              p ++ ((flattenGroups ps ++ dk1) ++ [c]) := by
            simp only [List.append_assoc]
          rw [e1, e2]
          exact List.Perm.append_left p h4
        · simp only [List.length_append, List.length_cons, List.length_nil]
            at ihlen ⊢
          omega
        · simp [List.map_cons, List.length_append, ihmap]

theorem dealRound_isSome (ps : List (List PlayingCard))
    (deck : List PlayingCard) (h : ps.length ≤ deck.length) :
    (dealRound ps deck).isSome = true := by
  induction ps generalizing deck with
  | nil => simp [dealRound]
  | cons p ps ih =>
    cases deck with
    | nil => simp at h
    | cons a as =>
      simp only [dealRound]
      have hds := draw_cons_isSome a as
      cases hd : draw (a :: as) with
      | none => rw [hd] at hds; simp at hds
      | some pr =>
        obtain ⟨c, dk1⟩ := pr
        have hlen : dk1.length + 1 = (a :: as).length := by
          have hsp := draw_eq_some_iff (a :: as) c dk1 hd
          rw [hsp]
          simp
        have hle : ps.length ≤ dk1.length := by
          simp only [List.length_cons] at h hlen
          omega
        have hih := ih dk1 hle
        cases hr : dealRound ps dk1 with
        | none => rw [hr] at hih; simp at hih
        | some pr2 => obtain ⟨ps2, dk2⟩ := pr2; simp [hr]

theorem drawN_spec (k : Nat) (acc deck comm deck1 : List PlayingCard)
    (h : drawN k acc deck = some (comm, deck1)) :
    (comm ++ deck1).Perm (acc ++ deck) ∧
    deck1.length + k = deck.length ∧
    comm.length = acc.length + k := by
  induction k generalizing acc deck with
  | zero =>
    simp only [drawN, Option.some.injEq, Prod.mk.injEq] at h
    obtain ⟨h1, h2⟩ := h
    subst h1; subst h2
    exact ⟨List.Perm.refl _, by simp, by simp⟩
  | succ k ih =>
    simp only [drawN] at h
    cases hd : draw deck with
    | none => rw [hd] at h; simp at h
    | some pr =>
      obtain ⟨c, dk1⟩ := pr
      rw [hd] at h
      simp only at h
      have hsplit := draw_eq_some_iff deck c dk1 hd
      subst hsplit
      obtain ⟨ihp, ihl, ihc⟩ := ih (acc ++ [c]) dk1 h
      refine ⟨?_, ?_, ?_⟩
      · have e : (acc ++ [c]) ++ dk1 = acc ++ (c :: dk1) := by simp
        have h2 : (acc ++ (c :: dk1)).Perm (acc ++ (dk1 ++ [c])) :=
          List.Perm.append_left acc (List.perm_append_singleton c dk1).symm
        rw [e] at ihp
        exact ihp.trans h2
      · simp only [List.length_append, List.length_cons, List.length_nil]
          at ihl ⊢
        omega
      · simp only [List.length_append, List.length_cons, List.length_nil]
          at ihc ⊢
        omega

theorem drawN_isSome (k : Nat) (acc deck : List PlayingCard)
    (h : k ≤ deck.length) : (drawN k acc deck).isSome = true := by
  induction k generalizing acc deck with
  | zero => simp [drawN]
  | succ k ih =>
    cases deck with
    | nil => simp at h
    | cons a as =>
      simp only [drawN]
      have hds := draw_cons_isSome a as
      cases hd : draw (a :: as) with
      | none => rw [hd] at hds; simp at hds
      | some pr =>
        obtain ⟨c, dk1⟩ := pr
        have hlen : dk1.length + 1 = (a :: as).length := by
          have hsp := draw_eq_some_iff (a :: as) c dk1 hd
          rw [hsp]
          simp
        exact ih (acc ++ [c]) dk1 (by simp only [List.length_cons] at h hlen; omega)

/-- C7: dealing 2 cards to each of n ≤ 22 players and then 5 community
cards from a fresh 52-card deck succeeds, leaves exactly 52 − 2n − 5 cards
in the deck, and no card appears twice across the hole hands, the
community cards and the remaining deck. -/
theorem deal_deck_invariant (deck : List PlayingCard) (n : Nat)
    (hn : n ≤ 22) (hlen : deck.length = 52) (hnodup : deck.Nodup) :
    ∃ players community rest,
      runTrialDeal n deck = some (players, community, rest) ∧
      players.length = n ∧ (∀ p ∈ players, p.length = 2) ∧
      community.length = 5 ∧ rest.length = 52 - 2 * n - 5 ∧
      (flattenGroups players ++ community ++ rest).Nodup := by
  have h1s : (dealRound (List.replicate n []) deck).isSome = true :=
    dealRound_isSome _ _ (by simp [hlen]; omega)
  obtain ⟨⟨ps1, d1⟩, h1⟩ := Option.isSome_iff_exists.mp h1s
  obtain ⟨perm1, len1, map1⟩ := dealRound_spec _ _ _ _ h1
  have hps1len : ps1.length = n := by
    have := congrArg List.length map1
    simpa using this
  have hd1len : d1.length = 52 - n := by
    simp only [List.length_replicate, hlen] at len1
    omega
  have h2s : (dealRound ps1 d1).isSome = true :=
    dealRound_isSome _ _ (by rw [hps1len, hd1len]; omega)
  obtain ⟨⟨players, d2⟩, h2⟩ := Option.isSome_iff_exists.mp h2s
  obtain ⟨perm2, len2, map2⟩ := dealRound_spec _ _ _ _ h2
  have hd2len : d2.length = 52 - 2 * n := by
    rw [hps1len, hd1len] at len2
    omega
  have h3s : (drawN 5 [] d2).isSome = true :=
    drawN_isSome _ _ _ (by rw [hd2len]; omega)
  obtain ⟨⟨community, rest⟩, h3⟩ := Option.isSome_iff_exists.mp h3s
  obtain ⟨perm3, len3, clen⟩ := drawN_spec _ _ _ _ _ h3
  have hmap1 : ps1.map List.length = List.replicate n 1 := by
    rw [map1]
    simp [List.map_replicate]
  have hmap2 : players.map List.length = List.replicate n 2 := by
    have e : ps1.map (fun p => p.length + 1) =
        (ps1.map List.length).map (fun x => x + 1) := by
      rw [List.map_map]
      rfl
    rw [map2, e, hmap1]
    simp [List.map_replicate]
  refine ⟨players, community, rest, ?_, ?_, ?_, ?_, ?_, ?_⟩
  · simp [runTrialDeal, deal_hands, h1, h2, deal_community, h3]
  · have := congrArg List.length hmap2
    simpa using this
  · intro p hp
    have : p.length ∈ players.map List.length := List.mem_map_of_mem _ hp
    rw [hmap2] at this
    exact List.eq_of_mem_replicate this
  · simpa using clen
  · rw [hd2len] at len3
    omega
  · have permA : (flattenGroups ps1 ++ d1).Perm deck := by
      have := perm1
      rwa [flattenGroups_replicate_nil, List.nil_append] at this
    have permB : (flattenGroups players ++ d2).Perm deck := perm2.trans permA
    have permC : (community ++ rest).Perm d2 := by
      have := perm3
      rwa [List.nil_append] at this
    have permD : (flattenGroups players ++ (community ++ rest)).Perm deck :=
      (List.Perm.append_left (flattenGroups players) permC).trans permB
    have permE : ((flattenGroups players ++ community) ++ rest).Perm deck := by
      rw [List.append_assoc]
      exact permD
    exact (permE.nodup_iff).mpr hnodup

/-- Witness for C7: a concrete three-player deal from the canonical
52-card deck. -/
theorem deal_deck_invariant_witness :
    ∃ players community rest,
      runTrialDeal 3 allCards = some (players, community, rest) ∧
      players.length = 3 ∧ (∀ p ∈ players, p.length = 2) ∧
      community.length = 5 ∧ rest.length = 52 - 2 * 3 - 5 ∧
      (flattenGroups players ++ community ++ rest).Nodup :=
  deal_deck_invariant allCards 3 (by decide) (by decide) (by decide)

/-- A player is a winner when their hand evaluates exactly to the best
value (exact equality, never approximate). -/
def isWinnerAt (community : List PlayingCard) (best : Nat)
    (p : List PlayingCard) : Bool :=
  match eval_hand (p ++ community) with
  | some e => e.1 == best
  | none => false

theorem getD_of_drop {α : Type _} (l : List α) (n : Nat) (x : α) (xs : List α)
    (d : α) (h : l.drop n = x :: xs) : l.getD n d = x := by
  induction l generalizing n with
  | nil => simp at h
  | cons a as ih =>
    cases n with
    | zero =>
      simp only [List.drop_zero, List.cons.injEq] at h
      simp [List.getD_cons_zero, h.1]
    | succ k =>
      simp only [List.drop_succ_cons] at h
      simp only [List.getD_cons_succ]
      exact ih k h

theorem drop_succ_of_drop {α : Type _} (l : List α) (n : Nat) (x : α)
    (xs : List α) (h : l.drop n = x :: xs) : l.drop (n + 1) = xs := by
  induction l generalizing n with
  | nil => simp at h
  | cons a as ih =>
    cases n with
    | zero =>
      simp only [List.drop_zero, List.cons.injEq] at h
      simpa using h.2
    | succ k =>
      simp only [List.drop_succ_cons] at h ⊢
      exact ih k h

theorem optionEvalAll_forall2 (community : List PlayingCard)
    (ps : List (List PlayingCard)) (evals : List (Nat × List PlayingCard))
    (h : optionEvalAll community ps = some evals) :
    List.Forall₂ (fun p e => eval_hand (p ++ community) = some e) ps evals := by
  induction ps generalizing evals with
  | nil =>
    simp only [optionEvalAll, Option.some.injEq] at h
    subst h
    exact List.Forall₂.nil
  | cons p ps ih =>
    simp only [optionEvalAll] at h
    cases he : eval_hand (p ++ community) with
    | none => rw [he] at h; simp at h
    | some e =>
      rw [he] at h
      cases hr : optionEvalAll community ps with
      | none => rw [hr] at h; simp at h
      | some es =>
        rw [hr] at h
        simp only [Option.some.injEq] at h
        subst h
        exact List.Forall₂.cons he (ih es hr)

theorem forallTwo_exists_of_mem_right {α β : Type _} {R : α → β → Prop}
    {l1 : List α} {l2 : List β} (h : List.Forall₂ R l1 l2) {b : β}
    (hb : b ∈ l2) : ∃ a, a ∈ l1 ∧ R a b := by
  induction h with
  | nil => simp at hb
  | cons hr ht ih =>
    rcases List.mem_cons.mp hb with h1 | h2
    · subst h1
      exact ⟨_, List.mem_cons_self _ _, hr⟩
    · obtain ⟨a, ha, hRa⟩ := ih h2
      exact ⟨a, List.mem_cons_of_mem _ ha, hRa⟩

theorem forallTwo_exists_of_mem_left {α β : Type _} {R : α → β → Prop}
    {l1 : List α} {l2 : List β} (h : List.Forall₂ R l1 l2) {a : α}
    (ha : a ∈ l1) : ∃ b, b ∈ l2 ∧ R a b := by
  induction h with
  | nil => simp at ha
  | cons hr ht ih =>
    rcases List.mem_cons.mp ha with h1 | h2
    · subst h1
      exact ⟨_, List.mem_cons_self _ _, hr⟩
    · obtain ⟨b, hb, hRb⟩ := ih h2
      exact ⟨b, List.mem_cons_of_mem _ hb, hRb⟩

theorem le_foldl_max (vs : List Nat) (v : Nat) : v ≤ vs.foldl max v := by
  induction vs generalizing v with
  | nil => exact Nat.le_refl v
  | cons x xs ih =>
    simp only [List.foldl_cons]
    exact Nat.le_trans (Nat.le_max_left v x) (ih (max v x))

theorem mem_le_foldl_max (vs : List Nat) :
    ∀ (v x : Nat), x ∈ vs → x ≤ vs.foldl max v := by
  induction vs with
  | nil => intro v x hx; simp at hx
  | cons y ys ih =>
    intro v x hx
    simp only [List.foldl_cons]
    rcases List.mem_cons.mp hx with h1 | h2
    · subst h1
      exact Nat.le_trans (Nat.le_max_right v x) (le_foldl_max ys (max v x))
    · exact ih (max v y) x h2

theorem foldl_max_mem (vs : List Nat) :
    ∀ v, vs.foldl max v = v ∨ vs.foldl max v ∈ vs := by
  induction vs with
  | nil => intro v; left; rfl
  | cons y ys ih =>
    intro v
    simp only [List.foldl_cons]
    rcases ih (max v y) with h | h
    · rcases max_choice v y with h1 | h1
      · left; exact h.trans h1
      · right
        rw [h, h1]
        exact List.mem_cons_self y ys
    · right
      exact List.mem_cons_of_mem y h

theorem maxKey_spec (l : List Nat) (m : Nat) (h : maxKey l = some m) :
    m ∈ l ∧ ∀ x ∈ l, x ≤ m := by
  cases l with
  | nil => simp [maxKey] at h
  | cons v vs =>
    simp only [maxKey, Option.some.injEq] at h
    subst h
    constructor
    · rcases foldl_max_mem vs v with h | h
      · rw [h]
        exact List.mem_cons_self v vs
      · exact List.mem_cons_of_mem v h
    · intro x hx
      rcases List.mem_cons.mp hx with h1 | h2
      · subst h1
        exact le_foldl_max vs x
      · exact mem_le_foldl_max vs v x h2

theorem winnersEq (community : List PlayingCard) (best : Nat)
    (ps : List (List PlayingCard)) :
    ∀ (evals : List (Nat × List PlayingCard))
      (full : List (List PlayingCard)) (n : Nat),
      optionEvalAll community ps = some evals → full.drop n = ps →
      (((evals.enumFrom n).filter (fun q => q.2.1 == best)).map
          (fun q => q.1)).map (fun i => full.getD i []) =
        ps.filter (isWinnerAt community best) := by
  induction ps with
  | nil =>
    intro evals full n h hdrop
    simp only [optionEvalAll, Option.some.injEq] at h
    subst h
    simp [List.enumFrom]
  | cons p ps ih =>
    intro evals full n h hdrop
    simp only [optionEvalAll] at h
    cases he : eval_hand (p ++ community) with
    | none => rw [he] at h; simp at h
    | some e =>
      rw [he] at h
      cases hr : optionEvalAll community ps with
      | none => rw [hr] at h; simp at h
      | some es =>
        rw [hr] at h
        simp only [Option.some.injEq] at h
        subst h
        have hget : full.getD n [] = p := getD_of_drop full n p ps [] hdrop
        have hdrop1 : full.drop (n + 1) = ps :=
          drop_succ_of_drop full n p ps hdrop
        have htail := ih es full (n + 1) hr hdrop1
        cases hb : e.1 == best with
        | true =>
          have hw : isWinnerAt community best p = true := by
            simp [isWinnerAt, he, hb]
          simp only [List.enumFrom, List.filter_cons, hb, if_true,
            List.map_cons, hget, htail, hw]
        | false =>
          have hw : isWinnerAt community best p = false := by
            simp [isWinnerAt, he, hb]
          simp only [List.enumFrom, List.filter_cons, hb, if_false,
            Bool.false_eq_true, htail, hw]

/-- C6: when the resolver returns a Game Result, its hand_value is the
maximum best Hand Value achieved across the players, its winners are
exactly the players achieving that exact value, is_draw holds iff there is
more than one winner, and the winning-hands and winning-hole-cards lists
have equal length (one pairing per winner). -/
theorem evaluate_spec (players : List (List PlayingCard))
    (community : List PlayingCard) (r : PokerGameResult)
    (h : evaluate players community = some r) :
    (∃ p, p ∈ players ∧ handValue (p ++ community) = some r.hand_value) ∧
    (∀ p, p ∈ players → ∀ v, handValue (p ++ community) = some v →
      v ≤ r.hand_value) ∧
    r.winning_hole_cards = players.filter
      (isWinnerAt community r.hand_value) ∧
    r.winning_hands.length = r.winning_hole_cards.length ∧
    (r.is_draw = true ↔ 1 < r.winning_hands.length) := by
  simp only [evaluate] at h
  cases hA : optionEvalAll community players with
  | none => rw [hA] at h; simp at h
  | some evals =>
    rw [hA] at h
    simp only at h
    cases hB : maxKey (evals.map (fun e => e.1)) with
    | none => rw [hB] at h; simp at h
    | some best =>
      rw [hB] at h
      simp only [Option.some.injEq] at h
      subst h
      have hf2 := optionEvalAll_forall2 community players evals hA
      obtain ⟨hmem, hub⟩ := maxKey_spec _ _ hB
      refine ⟨?_, ?_, ?_, ?_, ?_⟩
      · obtain ⟨e, he_mem, he_fst⟩ := List.mem_map.mp hmem
        obtain ⟨p, hp_mem, hp_eval⟩ := forallTwo_exists_of_mem_right hf2 he_mem
        refine ⟨p, hp_mem, ?_⟩
        simp [handValue, hp_eval, he_fst]
      · intro p hp v hv
        obtain ⟨e, he_mem, hp_eval⟩ := forallTwo_exists_of_mem_left hf2 hp
        have hv' : v = e.1 := by
          simp only [handValue, hp_eval, Option.map_some'] at hv
          exact (Option.some.injEq _ _ ▸ hv).symm
        subst hv'
        exact hub e.1 (List.mem_map_of_mem _ he_mem)
      · have henum : evals.enum = evals.enumFrom 0 := rfl
        have := winnersEq community best players evals players 0 hA
          (List.drop_zero players)
        simp only [henum]
        exact this
      · simp [List.length_map]
      · simp [PokerGameResult.is_draw]

/-- A concrete two-player game: pocket aces against pocket kings. -/
def witnessPlayers : List (List PlayingCard) :=
  [[⟨14, 0⟩, ⟨14, 1⟩], [⟨13, 0⟩, ⟨13, 1⟩]]

/-- Community cards for the concrete game. -/
def witnessCommunity : List PlayingCard :=
  [⟨14, 2⟩, ⟨2, 3⟩, ⟨3, 3⟩, ⟨4, 1⟩, ⟨9, 0⟩]

/-- The Game Result the resolver produces for the concrete game: trip aces
win, single winner. -/
def witnessResult : PokerGameResult :=
  { hand_value := 4101120,
    winning_hands := [[⟨14, 0⟩, ⟨14, 1⟩, ⟨14, 2⟩, ⟨9, 0⟩, ⟨4, 1⟩]],
    winning_hole_cards := [[⟨14, 0⟩, ⟨14, 1⟩]] }

/-- Witness for C6 on the concrete two-player game. -/
theorem evaluate_spec_witness :
    (∃ p, p ∈ witnessPlayers ∧
      handValue (p ++ witnessCommunity) = some witnessResult.hand_value) ∧
    (∀ p, p ∈ witnessPlayers → ∀ v,
      handValue (p ++ witnessCommunity) = some v →
      v ≤ witnessResult.hand_value) ∧
    witnessResult.winning_hole_cards = witnessPlayers.filter
      (isWinnerAt witnessCommunity witnessResult.hand_value) ∧
    witnessResult.winning_hands.length =
      witnessResult.winning_hole_cards.length ∧
    (witnessResult.is_draw = true ↔
      1 < witnessResult.winning_hands.length) :=
  evaluate_spec witnessPlayers witnessCommunity witnessResult (by decide)
